import Mathlib

/-!
Verification of the content-Ai repository: frontend request normalization
(word-count ranges, tone), the SSE streaming client, and the response-cache
request-coalescing contract.
-/

namespace ContentAi

/-!
### Word-count range parsing — src/frontend/src/forms/schema.ts

The schema field validator tests the anchored regex `^\d+-\d+$` and then a
refinement `parseInt(match[1], 10) >= 50`.  `normalizeWordCount` re-matches
`^(\d+)-(\d+)$`, returns 50 on a failed match or on `min < 50 || max < 50 ||
min > max`, and otherwise `Math.max(50, Math.floor((min + max) / 2))`.
-/

/-- Split a character list at its first dash, returning the parts before and
after it.  The anchored regex `^(\d+)-(\d+)$` matches exactly when the first
dash decomposes the string into two nonempty all-digit groups, so this split
recovers the capture groups. -/
def dashSplit : List Char → Option (List Char × List Char)
  | [] => none
  | c :: cs =>
    if c = '-' then some ([], cs)
    else
      match dashSplit cs with
      | some (a, b) => some (c :: a, b)
      | none => none

/-- Embedding of the match `wordCount.match(/^(\d+)-(\d+)$/)`: the two capture
groups when the regex matches, `none` otherwise. -/
def matchWordCount (s : String) : Option (List Char × List Char) :=
  match dashSplit s.data with
  | some (a, b) =>
    if a ≠ [] ∧ b ≠ [] ∧ a.all Char.isDigit ∧ b.all Char.isDigit then some (a, b) else none
  | none => none

/-- `parseInt(ds, 10)` on an all-digit capture group. -/
def parseDigits (cs : List Char) : Nat :=
  cs.foldl (fun acc c => 10 * acc + (c.toNat - 48)) 0

/-- `normalizeWordCount` from src/frontend/src/forms/schema.ts lines 37-45. -/
def normalizeWordCount (wordCount : String) : Nat :=
  match matchWordCount wordCount with
  | none => 50
  | some (a, b) =>
    if parseDigits a < 50 ∨ parseDigits b < 50 ∨ parseDigits a > parseDigits b then 50
    else Nat.max 50 ((parseDigits a + parseDigits b) / 2)

/-- The zod `word_count` field validator (schema.ts lines 6-14): the anchored
regex `^\d+-\d+$` must match, and the refinement requires the parsed minimum
to be at least 50. -/
def wordCountValid (val : String) : Bool :=
  match matchWordCount val with
  | none => false
  | some (a, _) => 50 ≤ parseDigits a

/-!
### Tone validation and normalization — src/frontend/src/forms/schema.ts
-/

/-- The fixed tone enumeration used by every schema's `z.enum`. -/
def toneOptions : List String :=
  ["professional", "casual", "friendly", "formal", "engaging", "persuasive"]

/-- The zod `tone` field validator (schema.ts lines 15-17): `z.enum` accepts
exactly the literal members of the enumeration, with no normalization. -/
def toneValid (tone : String) : Bool :=
  toneOptions.contains tone

/-- `trim()` on the character list of a string: drop whitespace from both
ends. -/
def trimChars (cs : List Char) : List Char :=
  ((cs.dropWhile Char.isWhitespace).reverse.dropWhile Char.isWhitespace).reverse

/-- `normalizeTone` from schema.ts lines 119-121:
`tone.toLowerCase().trim()`. -/
def normalizeTone (tone : String) : String :=
  String.mk (trimChars (tone.data.map Char.toLower))

/-!
### SSE streaming client — src/frontend/src/services/api.ts

`generateContentStream` installs an `onmessage` handler (accumulate
`data.content` into `fullContent` and call `onChunk`; on the literal
`[DONE]` close the source and call `onComplete`; swallow JSON parse
failures) and an `onerror` handler (close the source, call `onError`).
The behavior of `JSON.parse` plus the `data.content` lookup is abstracted
as a `decode` function: `none` models a parse exception, `some none` a
parsed value without a (truthy-capable) `content` field, and
`some (some c)` a `content` field whose value appends as the string `c`.
-/

/-- An event delivered by the browser EventSource to this client: a message
frame carrying its data string, or a connection error. -/
inductive StreamEvent where
  | message (data : String)
  | error
deriving DecidableEq

/-- An observable action of `generateContentStream`: closing the event
source, or invoking one of the three callbacks. -/
inductive Action where
  | close
  | onChunk (chunk : String)
  | onComplete (fullContent : String)
  | onError (msg : String)
deriving DecidableEq

/-- Client-side state of one stream: whether `eventSource.close()` has been
called (a closed source delivers no further events) and the accumulated
`fullContent`. -/
structure StreamState where
  closed : Bool
  fullContent : String
deriving DecidableEq

/-- One delivered event through the handlers of api.ts lines 45-66: a closed
source delivers nothing; `[DONE]` closes the source and then completes; a
frame with truthy content appends it and fires `onChunk`; a frame that fails
to parse or lacks truthy content is skipped; an error event closes the
source and then reports the error. -/
def handleEvent (decode : String → Option (Option String)) (st : StreamState)
    (e : StreamEvent) : StreamState × List Action :=
  if st.closed then (st, [])
  else
    match e with
    | StreamEvent.error =>
      ({ st with closed := true },
        [Action.close, Action.onError "Stream connection error"])
    | StreamEvent.message d =>
      if d = "[DONE]" then
        ({ st with closed := true },
          [Action.close, Action.onComplete st.fullContent])
      else
        match decode d with
        | some (some c) =>
          if c = "" then (st, [])
          else ({ st with fullContent := st.fullContent ++ c }, [Action.onChunk c])
        | _ => (st, [])

/-- Process a finite event sequence from a given client state, collecting
the emitted actions in order. -/
def runFrom (decode : String → Option (Option String)) :
    StreamState → List StreamEvent → StreamState × List Action
  | st, [] => (st, [])
  | st, e :: es =>
    let p := handleEvent decode st e
    let q := runFrom decode p.1 es
    (q.1, p.2 ++ q.2)

/-- The observable trace of `generateContentStream` on a finite event
sequence, starting open with empty `fullContent`. -/
def runStream (decode : String → Option (Option String))
    (events : List StreamEvent) : List Action :=
  (runFrom decode ⟨false, ""⟩ events).2

/-- The content field a frame contributes to `fullContent` (`""` when the
frame is skipped or carries no content). -/
def contentOf (decode : String → Option (Option String)) (d : String) : String :=
  match decode d with
  | some (some c) => c
  | _ => ""

/-- The chunk a frame emits via `onChunk`: its content when present and
truthy. -/
def chunkOf (decode : String → Option (Option String)) (d : String) : Option String :=
  match decode d with
  | some (some c) => if c = "" then none else some c
  | _ => none

/-- In-order concatenation of the content fields of a frame list. -/
def concatContents (decode : String → Option (Option String)) :
    List String → String
  | [] => ""
  | d :: ds => contentOf decode d ++ concatContents decode ds

/-- Does an action report stream completion? -/
def isComplete : Action → Bool
  | Action.onComplete _ => true
  | _ => false

/-- Is an action a terminal callback (completion or error)? -/
def isTerminal : Action → Bool
  | Action.onComplete _ => true
  | Action.onError _ => true
  | _ => false

/-- A concrete frame decoder used to instantiate the streaming theorems. -/
def decodeTest (d : String) : Option (Option String) :=
  if d = "a" then some (some "Hello ")
  else if d = "b" then some (some "world")
  else if d = "nc" then some none
  else none

/-!
### ResponseCache request coalescing — modelled from the spec

The backend ResponseCache implementation is not among the provided source
files, so its concurrency contract is modelled from the spec: a
per-fingerprint in-progress marker holds a shared promise that late
arrivals attach to; lookup-and-mark and publish are atomic per fingerprint;
the provider call itself is not atomic.  Two callers race for one
fingerprint; the provider returns the value `v`.
-/

/-- Modelled from the spec: the phase of one request handler interacting
with the ResponseCache for a single fingerprint. -/
inductive CallerPhase where
  | lookup
  | calling
  | publishing
  | awaitingResult
  | finished (r : Nat)
deriving DecidableEq

/-- Modelled from the spec: the shared per-fingerprint cache cell — the
cached value, the in-flight marker, the shared promise, and a count of
provider invocations. -/
structure CacheShared where
  cache : Option Nat
  inflight : Bool
  promise : Option Nat
  provCalls : Nat
deriving DecidableEq

/-- Modelled from the spec: one atomic step of a caller.  `lookup` checks the
cache and the in-flight marker atomically: a hit finishes with the cached
value, an in-flight marker makes the caller await the shared promise, and
otherwise the caller claims the marker.  `calling` performs the provider
invocation.  `publishing` atomically stores the result, resolves the
promise, clears the marker, and finishes.  `awaitingResult` finishes once
the promise is resolved. -/
def stepCaller (v : Nat) : CallerPhase → CacheShared → CallerPhase × CacheShared
  | CallerPhase.lookup, sh =>
    match sh.cache with
    | some r => (CallerPhase.finished r, sh)
    | none =>
      if sh.inflight then (CallerPhase.awaitingResult, sh)
      else (CallerPhase.calling, { sh with inflight := true })
  | CallerPhase.calling, sh =>
    (CallerPhase.publishing, { sh with provCalls := sh.provCalls + 1 })
  | CallerPhase.publishing, sh =>
    (CallerPhase.finished v,
      { sh with cache := some v, promise := some v, inflight := false })
  | CallerPhase.awaitingResult, sh =>
    match sh.promise with
    | some r => (CallerPhase.finished r, sh)
    | none => (CallerPhase.awaitingResult, sh)
  | CallerPhase.finished r, sh => (CallerPhase.finished r, sh)

/-- Two concurrent callers racing on the same fingerprint, plus the shared
cache cell. -/
structure CoalesceState where
  callerA : CallerPhase
  callerB : CallerPhase
  shared : CacheShared
deriving DecidableEq

/-- One interleaving step: `true` advances caller A, `false` caller B. -/
def stepCoalesce (v : Nat) (s : CoalesceState) (i : Bool) : CoalesceState :=
  if i then
    let p := stepCaller v s.callerA s.shared
    { s with callerA := p.1, shared := p.2 }
  else
    let p := stepCaller v s.callerB s.shared
    { s with callerB := p.1, shared := p.2 }

/-- Initial state: no cached entry, no in-flight computation, both callers
about to look up. -/
def initCoalesce : CoalesceState :=
  ⟨CallerPhase.lookup, CallerPhase.lookup, ⟨none, false, none, 0⟩⟩

/-- Run an arbitrary finite interleaving of the two callers. -/
def runCoalesce (v : Nat) (trace : List Bool) : CoalesceState :=
  trace.foldl (stepCoalesce v) initCoalesce

/-- Exchange the two callers (the protocol is symmetric in them). -/
def swapCoalesce (s : CoalesceState) : CoalesceState :=
  ⟨s.callerB, s.callerA, s.shared⟩

/-- Is a caller holding the in-flight marker (between claiming it and
publishing)? -/
def activeC : CallerPhase → Bool
  | CallerPhase.calling => true
  | CallerPhase.publishing => true
  | _ => false

/-- Invariant of the coalescing protocol: at most one caller is active, the
in-flight marker tracks activity, the promise mirrors the cache, cached and
finished values are the provider value, an active caller implies no cached
entry yet, and the provider-call count is determined by the publisher/cache
state. -/
def CoalesceInv (v : Nat) (s : CoalesceState) : Prop :=
  (¬ (activeC s.callerA = true ∧ activeC s.callerB = true)) ∧
  (s.shared.inflight = (activeC s.callerA || activeC s.callerB)) ∧
  (s.shared.promise = s.shared.cache) ∧
  (∀ r, s.shared.cache = some r → r = v) ∧
  ((activeC s.callerA = true ∨ activeC s.callerB = true) →
    s.shared.cache = none) ∧
  (s.shared.provCalls =
    (if s.callerA = CallerPhase.publishing ∨ s.callerB = CallerPhase.publishing
      then 1 else 0) +
    (if s.shared.cache.isSome then 1 else 0)) ∧
  (∀ r, s.callerA = CallerPhase.finished r → r = v ∧ s.shared.cache = some v) ∧
  (∀ r, s.callerB = CallerPhase.finished r → r = v ∧ s.shared.cache = some v)

/-!
### Supporting lemmas
-/

theorem char_toLower_fix_of_not_upper {c : Char}
    (h : ¬ (c.toNat ≥ 65 ∧ c.toNat ≤ 90)) : c.toLower = c := by
  simp only [Char.toLower]
  rw [if_neg h]

theorem char_toNat_ofNat_valid {n : Nat} (h : n.isValidChar) :
    (Char.ofNat n).toNat = n := by
  rw [Char.ofNat, dif_pos h]
  rfl

theorem char_toLower_toLower (c : Char) : c.toLower.toLower = c.toLower := by
  by_cases h : c.toNat ≥ 65 ∧ c.toNat ≤ 90
  · have h1 : c.toLower = Char.ofNat (c.toNat + 32) := by
      simp only [Char.toLower]
      rw [if_pos h]
    have hv : (c.toNat + 32).isValidChar := Or.inl (by omega)
    have ht : (Char.ofNat (c.toNat + 32)).toNat = c.toNat + 32 :=
      char_toNat_ofNat_valid hv
    rw [h1]
    apply char_toLower_fix_of_not_upper
    rw [ht]
    omega
  · rw [char_toLower_fix_of_not_upper h, char_toLower_fix_of_not_upper h]

theorem length_dropWhile_le (p : Char → Bool) (l : List Char) :
    (l.dropWhile p).length ≤ l.length := by
  induction l with
  | nil => simp
  | cons c cs ih =>
    by_cases h : p c
    · rw [List.dropWhile_cons, if_pos h]
      exact Nat.le_succ_of_le ih
    · rw [List.dropWhile_cons, if_neg h]

theorem dropWhile_sfx (p : Char → Bool) (l : List Char) :
    ∃ t, l = t ++ l.dropWhile p := by
  induction l with
  | nil => exact ⟨[], rfl⟩
  | cons c cs ih =>
    by_cases h : p c
    · obtain ⟨t, ht⟩ := ih
      refine ⟨c :: t, ?_⟩
      rw [List.dropWhile_cons, if_pos h, List.cons_append, ← ht]
    · exact ⟨[], by rw [List.dropWhile_cons, if_neg h, List.nil_append]⟩

theorem dropWhile_dropWhile (p : Char → Bool) (l : List Char) :
    (l.dropWhile p).dropWhile p = l.dropWhile p := by
  induction l with
  | nil => rfl
  | cons c cs ih =>
    by_cases h : p c
    · rw [List.dropWhile_cons, if_pos h, ih]
    · rw [List.dropWhile_cons, if_neg h, List.dropWhile_cons, if_neg h]

theorem head_false_of_dropWhile_self {p : Char → Bool} {c : Char} {cs : List Char}
    (h : (c :: cs).dropWhile p = c :: cs) : p c = false := by
  by_cases hc : p c
  · exfalso
    rw [List.dropWhile_cons, if_pos hc] at h
    have hlen := congrArg List.length h
    have := length_dropWhile_le p cs
    simp only [List.length_cons] at hlen
    omega
  · simp only [Bool.not_eq_true] at hc
    exact hc

theorem dropWhile_eq_self_of_app {p : Char → Bool} {y r : List Char}
    (h : (y ++ r).dropWhile p = y ++ r) : y.dropWhile p = y := by
  cases y with
  | nil => rfl
  | cons c cs =>
    rw [List.cons_append] at h
    have hpc : p c = false := head_false_of_dropWhile_self h
    rw [List.dropWhile_cons, hpc]
    simp

theorem trimChars_dropWhile (l : List Char) :
    (trimChars l).dropWhile Char.isWhitespace = trimChars l := by
  unfold trimChars
  obtain ⟨t, ht⟩ :=
    dropWhile_sfx Char.isWhitespace (l.dropWhile Char.isWhitespace).reverse
  have hz : (l.dropWhile Char.isWhitespace).dropWhile Char.isWhitespace
      = l.dropWhile Char.isWhitespace := dropWhile_dropWhile _ _
  have hdecomp : l.dropWhile Char.isWhitespace =
      ((l.dropWhile Char.isWhitespace).reverse.dropWhile Char.isWhitespace).reverse
        ++ t.reverse := by
    conv_lhs =>
      rw [← List.reverse_reverse (l.dropWhile Char.isWhitespace), ht,
        List.reverse_append]
  rw [hdecomp] at hz
  exact dropWhile_eq_self_of_app hz

theorem trimChars_trimChars (l : List Char) :
    trimChars (trimChars l) = trimChars l := by
  have h1 : (trimChars l).dropWhile Char.isWhitespace = trimChars l :=
    trimChars_dropWhile l
  show ((((trimChars l).dropWhile Char.isWhitespace).reverse.dropWhile
      Char.isWhitespace)).reverse = trimChars l
  rw [h1]
  unfold trimChars
  rw [List.reverse_reverse, dropWhile_dropWhile]

theorem mem_of_mem_dropWhile {p : Char → Bool} {a : Char} {l : List Char}
    (h : a ∈ l.dropWhile p) : a ∈ l := by
  induction l with
  | nil => simp at h
  | cons c cs ih =>
    by_cases hc : p c
    · rw [List.dropWhile_cons, if_pos hc] at h
      exact List.mem_cons_of_mem _ (ih h)
    · rw [List.dropWhile_cons, if_neg hc] at h
      exact h

theorem mem_of_mem_trimChars {a : Char} {l : List Char}
    (h : a ∈ trimChars l) : a ∈ l := by
  unfold trimChars at h
  rw [List.mem_reverse] at h
  have h1 := mem_of_mem_dropWhile h
  rw [List.mem_reverse] at h1
  exact mem_of_mem_dropWhile h1

theorem map_eq_self_of_fix {f : Char → Char} {l : List Char}
    (h : ∀ a ∈ l, f a = a) : l.map f = l := by
  induction l with
  | nil => rfl
  | cons c cs ih =>
    rw [List.map_cons, h c (List.mem_cons_self c cs),
      ih (fun a ha => h a (List.mem_cons_of_mem _ ha))]

/-!
### Claim theorems: word count and tone
-/

/-- C1: for every well-formed `word_count` range string whose parsed minimum
is at least 50 and at most the parsed maximum, `normalizeWordCount` returns
`max(50, floor((min + max) / 2))`. -/
theorem normalizeWordCount_midpoint (s : String) (a b : List Char)
    (h : matchWordCount s = some (a, b))
    (hmin : 50 ≤ parseDigits a) (hle : parseDigits a ≤ parseDigits b) :
    normalizeWordCount s = Nat.max 50 ((parseDigits a + parseDigits b) / 2) := by
  simp only [normalizeWordCount, h]
  rw [if_neg (by omega)]

/-- C1 witness: `"50-300"` normalizes to 175. -/
theorem normalizeWordCount_midpoint_witness : normalizeWordCount "50-300" = 175 := by
  have h := normalizeWordCount_midpoint "50-300" ['5', '0'] ['3', '0', '0']
    (by decide) (by decide) (by decide)
  rw [h]
  decide

/-- C2: a range whose parsed minimum is below 50 is rejected by the schema
validator, and is not normalized to a midpoint target (`normalizeWordCount`
falls back to the floor 50). -/
theorem wordCountValid_rejects_low_min (s : String) (a b : List Char)
    (h : matchWordCount s = some (a, b)) (hlt : parseDigits a < 50) :
    wordCountValid s = false ∧ normalizeWordCount s = 50 := by
  constructor
  · simp only [wordCountValid, h, decide_eq_false_iff_not]
    omega
  · simp only [normalizeWordCount, h]
    rw [if_pos (Or.inl hlt)]

/-- C2 witness: `"10-40"` is rejected. -/
theorem wordCountValid_rejects_low_min_witness :
    wordCountValid "10-40" = false ∧ normalizeWordCount "10-40" = 50 :=
  wordCountValid_rejects_low_min "10-40" ['1', '0'] ['4', '0'] (by decide) (by decide)

/-- C3 counterexample: the inverted range `"100-50"` (min > max) is accepted
by the schema validator, contradicting the claim that such ranges are
rejected by validation. -/
theorem wordCountValid_accepts_inverted_cex : wordCountValid "100-50" = true := by decide

/-- C3 amended: a well-formed range with `min ≥ 50` and `min > max` passes
schema validation (which checks only the format and the minimum), and
`normalizeWordCount` maps it to the floor value 50 rather than a midpoint. -/
theorem wordCountValid_inverted_range_behavior (s : String) (a b : List Char)
    (h : matchWordCount s = some (a, b)) (hmin : 50 ≤ parseDigits a)
    (hinv : parseDigits b < parseDigits a) :
    wordCountValid s = true ∧ normalizeWordCount s = 50 := by
  constructor
  · simp only [wordCountValid, h, decide_eq_true_eq]
    omega
  · simp only [normalizeWordCount, h]
    rw [if_pos (Or.inr (Or.inr (by omega)))]

/-- C3 amended witness: `"100-50"` validates and normalizes to 50. -/
theorem wordCountValid_inverted_range_behavior_witness :
    wordCountValid "100-50" = true ∧ normalizeWordCount "100-50" = 50 :=
  wordCountValid_inverted_range_behavior "100-50" ['1', '0', '0'] ['5', '0']
    (by decide) (by decide) (by decide)

/-- C4 counterexample: `" Professional "` is rejected by the tone validator,
contradicting the claim that validation normalizes before checking enum
membership. -/
theorem toneValid_rejects_padded_cex :
    toneValid " Professional " = false ∧ toneValid (normalizeTone " Professional ") = true := by
  constructor
  · decide
  · decide

/-- C4 amended: the tone validator checks raw membership in the fixed
enumeration without applying any normalization; `normalizeTone` (lower-case
then trim) exists but is not invoked by validation.  Every accepted tone is
already in normalized form (`normalizeTone` fixes it), while a string such as
`" Professional "` is rejected even though its normalized form is accepted. -/
theorem toneValid_raw_membership :
    (∀ s : String, toneValid s = true → normalizeTone s = s ∧ toneValid (normalizeTone s) = true) ∧
      toneValid " Professional " = false ∧
      toneValid (normalizeTone " Professional ") = true := by
  refine ⟨?_, by decide, by decide⟩
  intro s hs
  have hs2 : toneOptions.elem s = true := hs
  have hmem : s ∈ toneOptions := List.elem_iff.mp hs2
  fin_cases hmem <;> exact ⟨by decide, by decide⟩

/-- C4 amended witness: `"casual"` is accepted and is a fixed point of
normalization. -/
theorem toneValid_raw_membership_witness :
    normalizeTone "casual" = "casual" ∧ toneValid (normalizeTone "casual") = true :=
  toneValid_raw_membership.1 "casual" (by decide)

/-- C8: `normalizeWordCount` is total and returns at least 50 on every input
string, malformed or not. -/
theorem normalizeWordCount_ge_50 (s : String) : 50 ≤ normalizeWordCount s := by
  unfold normalizeWordCount
  cases hm : matchWordCount s with
  | none => exact Nat.le_refl 50
  | some p =>
    obtain ⟨a, b⟩ := p
    show 50 ≤ if parseDigits a < 50 ∨ parseDigits b < 50 ∨ parseDigits a > parseDigits b
      then 50 else Nat.max 50 ((parseDigits a + parseDigits b) / 2)
    by_cases hc : parseDigits a < 50 ∨ parseDigits b < 50 ∨ parseDigits a > parseDigits b
    · rw [if_pos hc]
    · rw [if_neg hc]
      exact Nat.le_max_left _ _

/-!
### Supporting lemmas: streaming
-/

theorem str_append_assoc (a b c : String) : a ++ b ++ c = a ++ (b ++ c) := by
  apply String.ext
  simp [List.append_assoc]

theorem str_append_empty (a : String) : a ++ "" = a := by
  apply String.ext
  simp

theorem runFrom_closed (decode : String → Option (Option String))
    (st : StreamState) (hc : st.closed = true) (es : List StreamEvent) :
    runFrom decode st es = (st, []) := by
  induction es with
  | nil => rfl
  | cons e es ih => simp [runFrom, handleEvent, hc, ih]

theorem runFrom_append (decode : String → Option (Option String))
    (st : StreamState) (es fs : List StreamEvent) :
    runFrom decode st (es ++ fs) =
      ((runFrom decode (runFrom decode st es).1 fs).1,
        (runFrom decode st es).2 ++ (runFrom decode (runFrom decode st es).1 fs).2) := by
  induction es generalizing st with
  | nil => simp [runFrom]
  | cons e es ih => simp [runFrom, ih, List.append_assoc]

theorem runFrom_frames (decode : String → Option (Option String))
    (frames : List String) (h : ∀ f ∈ frames, f ≠ "[DONE]") (acc : String) :
    runFrom decode ⟨false, acc⟩ (frames.map StreamEvent.message) =
      (⟨false, acc ++ concatContents decode frames⟩,
        (frames.filterMap (chunkOf decode)).map Action.onChunk) := by
  induction frames generalizing acc with
  | nil =>
    simp only [List.map_nil, runFrom, concatContents, List.filterMap_nil]
    rw [str_append_empty]
  | cons f fs ih =>
    have hf : f ≠ "[DONE]" := h f (List.mem_cons_self f fs)
    have hfs : ∀ g ∈ fs, g ≠ "[DONE]" := fun g hg => h g (List.mem_cons_of_mem _ hg)
    rcases hd : decode f with _ | oc
    · have hh : handleEvent decode ⟨false, acc⟩ (StreamEvent.message f)
          = (⟨false, acc⟩, []) := by
        simp [handleEvent, hf, hd]
      simp only [List.map_cons, runFrom, hh, ih hfs acc, List.filterMap_cons,
        concatContents, contentOf, chunkOf, hd]
      simp
    · rcases oc with _ | c
      · have hh : handleEvent decode ⟨false, acc⟩ (StreamEvent.message f)
            = (⟨false, acc⟩, []) := by
          simp [handleEvent, hf, hd]
        simp only [List.map_cons, runFrom, hh, ih hfs acc, List.filterMap_cons,
          concatContents, contentOf, chunkOf, hd]
        simp
      · by_cases hc : c = ""
        · subst hc
          have hh : handleEvent decode ⟨false, acc⟩ (StreamEvent.message f)
              = (⟨false, acc⟩, []) := by
            simp [handleEvent, hf, hd]
          simp only [List.map_cons, runFrom, hh, ih hfs acc, List.filterMap_cons,
            concatContents, contentOf, chunkOf, hd]
          simp [str_append_empty]
        · have hh : handleEvent decode ⟨false, acc⟩ (StreamEvent.message f)
              = (⟨false, acc ++ c⟩, [Action.onChunk c]) := by
            simp [handleEvent, hf, hd, hc]
          simp only [List.map_cons, runFrom, hh, ih hfs (acc ++ c),
            List.filterMap_cons, concatContents, contentOf, chunkOf, hd]
          simp [hc, str_append_assoc]

theorem countP_map_onChunk (p : Action → Bool) (hp : ∀ c, p (Action.onChunk c) = false)
    (cs : List String) : ((cs.map Action.onChunk).countP p) = 0 := by
  induction cs with
  | nil => rfl
  | cons c cs ih =>
    rw [List.map_cons, List.countP_cons, hp, ih]
    simp

theorem runFrom_shape (decode : String → Option (Option String))
    (events : List StreamEvent) (st : StreamState) :
    ∃ (cs : List String) (ending : List Action),
      (runFrom decode st events).2 = cs.map Action.onChunk ++ ending ∧
      (ending = [] ∨ (∃ c, ending = [Action.close, Action.onComplete c]) ∨
        ending = [Action.close, Action.onError "Stream connection error"]) := by
  induction events generalizing st with
  | nil => exact ⟨[], [], by simp [runFrom], Or.inl rfl⟩
  | cons e es ih =>
    by_cases hcl : st.closed
    · rw [runFrom_closed decode st hcl]
      exact ⟨[], [], rfl, Or.inl rfl⟩
    · have hcl' : st.closed = false := by simpa using hcl
      cases e with
      | error =>
        have hh : handleEvent decode st StreamEvent.error =
            ({ st with closed := true },
              [Action.close, Action.onError "Stream connection error"]) := by
          simp [handleEvent, hcl']
        refine ⟨[], [Action.close, Action.onError "Stream connection error"], ?_,
          Or.inr (Or.inr rfl)⟩
        simp only [runFrom, hh]
        rw [runFrom_closed decode _ rfl]
        simp
      | message d =>
        by_cases hdone : d = "[DONE]"
        · subst hdone
          have hh : handleEvent decode st (StreamEvent.message "[DONE]") =
              ({ st with closed := true },
                [Action.close, Action.onComplete st.fullContent]) := by
            simp [handleEvent, hcl']
          refine ⟨[], [Action.close, Action.onComplete st.fullContent], ?_,
            Or.inr (Or.inl ⟨st.fullContent, rfl⟩)⟩
          simp only [runFrom, hh]
          rw [runFrom_closed decode _ rfl]
          simp
        · rcases hd : decode d with _ | oc
          · have hh : handleEvent decode st (StreamEvent.message d) = (st, []) := by
              simp [handleEvent, hcl', hdone, hd]
            obtain ⟨cs, ending, heq, hend⟩ := ih st
            exact ⟨cs, ending, by simp only [runFrom, hh]; simpa using heq, hend⟩
          · rcases oc with _ | c
            · have hh : handleEvent decode st (StreamEvent.message d) = (st, []) := by
                simp [handleEvent, hcl', hdone, hd]
              obtain ⟨cs, ending, heq, hend⟩ := ih st
              exact ⟨cs, ending, by simp only [runFrom, hh]; simpa using heq, hend⟩
            · by_cases hc : c = ""
              · subst hc
                have hh : handleEvent decode st (StreamEvent.message d) = (st, []) := by
                  simp [handleEvent, hcl', hdone, hd]
                obtain ⟨cs, ending, heq, hend⟩ := ih st
                exact ⟨cs, ending, by simp only [runFrom, hh]; simpa using heq, hend⟩
              · have hh : handleEvent decode st (StreamEvent.message d) =
                    ({ st with fullContent := st.fullContent ++ c },
                      [Action.onChunk c]) := by
                  simp [handleEvent, hcl', hdone, hd, hc]
                obtain ⟨cs, ending, heq, hend⟩ :=
                  ih { st with fullContent := st.fullContent ++ c }
                refine ⟨c :: cs, ending, ?_, hend⟩
                simp only [runFrom, hh, List.map_cons, List.cons_append]
                simpa using heq

theorem handleEvent_frame (decode : String → Option (Option String))
    (st : StreamState) (d : String) (hop : st.closed = false) (hd : d ≠ "[DONE]") :
    (handleEvent decode st (StreamEvent.message d)).1.closed = false ∧
      ((handleEvent decode st (StreamEvent.message d)).2.countP isTerminal) = 0 := by
  rcases hdq : decode d with _ | oc
  · simp [handleEvent, hop, hd, hdq]
  · rcases oc with _ | c
    · simp [handleEvent, hop, hd, hdq]
    · by_cases hc : c = "" <;>
        simp [handleEvent, hop, hd, hdq, hc, isTerminal, List.countP_cons]

theorem runFrom_terminal_of_mem (decode : String → Option (Option String)) :
    ∀ (events : List StreamEvent) (st : StreamState), st.closed = false →
      (StreamEvent.error ∈ events ∨ StreamEvent.message "[DONE]" ∈ events) →
      ((runFrom decode st events).2.countP isTerminal) = 1 := by
  intro events
  induction events with
  | nil =>
    intro st hop hmem
    rcases hmem with hm | hm <;> simp at hm
  | cons e es ih =>
    intro st hop hmem
    cases e with
    | error =>
      have hh : handleEvent decode st StreamEvent.error =
          ({ st with closed := true },
            [Action.close, Action.onError "Stream connection error"]) := by
        simp [handleEvent, hop]
      simp only [runFrom, hh]
      rw [runFrom_closed decode _ rfl]
      simp [isTerminal, List.countP_cons]
    | message d =>
      by_cases hdone : d = "[DONE]"
      · subst hdone
        have hh : handleEvent decode st (StreamEvent.message "[DONE]") =
            ({ st with closed := true },
              [Action.close, Action.onComplete st.fullContent]) := by
          simp [handleEvent, hop]
        simp only [runFrom, hh]
        rw [runFrom_closed decode _ rfl]
        simp [isTerminal, List.countP_cons]
      · have hmem' : StreamEvent.error ∈ es ∨ StreamEvent.message "[DONE]" ∈ es := by
          rcases hmem with hm | hm
          · rcases List.mem_cons.mp hm with heq | h2
            · exact absurd heq (by simp)
            · exact Or.inl h2
          · rcases List.mem_cons.mp hm with heq | h2
            · exact absurd (by injection heq with h3; exact h3.symm) hdone
            · exact Or.inr h2
        obtain ⟨hcl, hcnt⟩ := handleEvent_frame decode st d hop hdone
        simp only [runFrom, List.countP_append]
        rw [ih _ hcl hmem', hcnt]

/-!
### Claim theorems: streaming client
-/

/-- C5: on a frame sequence ending in the literal `[DONE]`, the client fires
`onChunk` once per content-bearing frame in emission order, then closes the
source and invokes `onComplete` exactly once with the in-order concatenation
of the content fields of the preceding frames. -/
theorem generateContentStream_complete (decode : String → Option (Option String))
    (frames : List String) (h : ∀ f ∈ frames, f ≠ "[DONE]") :
    runStream decode (frames.map StreamEvent.message ++ [StreamEvent.message "[DONE]"]) =
      (frames.filterMap (chunkOf decode)).map Action.onChunk ++
        [Action.close, Action.onComplete (concatContents decode frames)] ∧
    (runStream decode
        (frames.map StreamEvent.message ++ [StreamEvent.message "[DONE]"])).countP
      isComplete = 1 := by
  have hmain : runStream decode
      (frames.map StreamEvent.message ++ [StreamEvent.message "[DONE]"]) =
      (frames.filterMap (chunkOf decode)).map Action.onChunk ++
        [Action.close, Action.onComplete (concatContents decode frames)] := by
    unfold runStream
    rw [runFrom_append, runFrom_frames decode frames h ""]
    have hdone : runFrom decode ⟨false, "" ++ concatContents decode frames⟩
        [StreamEvent.message "[DONE]"] =
        (⟨true, "" ++ concatContents decode frames⟩,
          [Action.close, Action.onComplete ("" ++ concatContents decode frames)]) := by
      simp [runFrom, handleEvent]
    have hempty : ("" : String) ++ concatContents decode frames
        = concatContents decode frames := String.ext (by simp)
    simp only [hdone]
    rw [hempty]
  refine ⟨hmain, ?_⟩
  rw [hmain, List.countP_append,
    countP_map_onChunk isComplete (fun c => rfl) (frames.filterMap (chunkOf decode))]
  rfl

/-- C5 witness: a four-frame stream (one contentful, one content-free, one
unparsable, one contentful) followed by `[DONE]`. -/
theorem generateContentStream_complete_witness :
    runStream decodeTest
        (["a", "nc", "bad", "b"].map StreamEvent.message ++
          [StreamEvent.message "[DONE]"]) =
      [Action.onChunk "Hello ", Action.onChunk "world", Action.close,
        Action.onComplete "Hello world"] := by
  have h := generateContentStream_complete decodeTest ["a", "nc", "bad", "b"] (by decide)
  rw [h.1]
  decide

/-- C6: every trace of the streaming client consists of chunk callbacks
followed by at most one terminal group; the terminal group closes the event
source immediately before reporting (`onComplete` or `onError`), and at most
one terminal callback ever fires. -/
theorem generateContentStream_terminal_unique (decode : String → Option (Option String))
    (events : List StreamEvent) :
    ∃ (cs : List String) (ending : List Action),
      runStream decode events = cs.map Action.onChunk ++ ending ∧
      (ending = [] ∨ (∃ c, ending = [Action.close, Action.onComplete c]) ∨
        ending = [Action.close, Action.onError "Stream connection error"]) ∧
      (runStream decode events).countP isTerminal ≤ 1 ∧
      ((StreamEvent.error ∈ events ∨ StreamEvent.message "[DONE]" ∈ events) →
        (runStream decode events).countP isTerminal = 1) := by
  obtain ⟨cs, ending, heq, hend⟩ := runFrom_shape decode events ⟨false, ""⟩
  refine ⟨cs, ending, heq, hend, ?_, ?_⟩
  · show (runStream decode events).countP isTerminal ≤ 1
    rw [show runStream decode events = cs.map Action.onChunk ++ ending from heq,
      List.countP_append, countP_map_onChunk isTerminal (fun c => rfl) cs]
    rcases hend with rfl | ⟨c, rfl⟩ | rfl
    · simp
    · simp [List.countP_cons, isTerminal]
    · simp [List.countP_cons, isTerminal]
  · intro hmem
    exact runFrom_terminal_of_mem decode events ⟨false, ""⟩ rfl hmem

/-- C6 witness: a stream interrupted by a connection error fires exactly one
terminal callback. -/
theorem generateContentStream_terminal_unique_witness :
    (runStream decodeTest [StreamEvent.message "a", StreamEvent.error]).countP
      isTerminal = 1 := by
  obtain ⟨cs, ending, heq, hend, hle, hone⟩ :=
    generateContentStream_terminal_unique decodeTest
      [StreamEvent.message "a", StreamEvent.error]
  exact hone (Or.inl (by decide))

/-- C10: a frame that fails to parse, or parses without a content field, is
skipped: the client state and emitted actions are exactly those of the same
stream without that frame. -/
theorem generateContentStream_skips_bad_frame (decode : String → Option (Option String))
    (st : StreamState) (d : String) (es : List StreamEvent)
    (hopen : st.closed = false) (hd : d ≠ "[DONE]")
    (hbad : decode d = none ∨ decode d = some none) :
    runFrom decode st (StreamEvent.message d :: es) = runFrom decode st es := by
  have hh : handleEvent decode st (StreamEvent.message d) = (st, []) := by
    rcases hbad with hb | hb <;> simp [handleEvent, hopen, hd, hb]
  simp [runFrom, hh]

/-- C10 witness: an unparsable frame before a contentful frame and `[DONE]`
leaves the run unchanged. -/
theorem generateContentStream_skips_bad_frame_witness :
    runFrom decodeTest ⟨false, ""⟩
        [StreamEvent.message "bad", StreamEvent.message "a",
          StreamEvent.message "[DONE]"] =
      runFrom decodeTest ⟨false, ""⟩
        [StreamEvent.message "a", StreamEvent.message "[DONE]"] :=
  generateContentStream_skips_bad_frame decodeTest ⟨false, ""⟩ "bad"
    [StreamEvent.message "a", StreamEvent.message "[DONE]"]
    rfl (by decide) (Or.inl rfl)

/-- C9: `normalizeTone` is idempotent. -/
theorem normalizeTone_idem (s : String) :
    normalizeTone (normalizeTone s) = normalizeTone s := by
  show String.mk (trimChars ((trimChars (s.data.map Char.toLower)).map Char.toLower))
      = String.mk (trimChars (s.data.map Char.toLower))
  have hfix : (trimChars (s.data.map Char.toLower)).map Char.toLower
      = trimChars (s.data.map Char.toLower) := by
    apply map_eq_self_of_fix
    intro a ha
    have := mem_of_mem_trimChars ha
    obtain ⟨c, _, rfl⟩ := List.mem_map.mp this
    exact char_toLower_toLower c
  rw [hfix, trimChars_trimChars]

/-!
### Supporting lemmas: request coalescing
-/

theorem coalesceInv_init (v : Nat) : CoalesceInv v initCoalesce := by
  simp [CoalesceInv, initCoalesce, activeC]

theorem coalesceInv_swap (v : Nat) (s : CoalesceState) (h : CoalesceInv v s) :
    CoalesceInv v (swapCoalesce s) := by
  obtain ⟨h1, h2, h3, h4, h5, h6, h7, h8⟩ := h
  refine ⟨fun hc => h1 ⟨hc.2, hc.1⟩, ?_, h3, h4, fun hc => h5 hc.symm, ?_, h8, h7⟩
  · rw [swapCoalesce, h2, Bool.or_comm]
  · rw [swapCoalesce, h6]
    simp only []
    congr 1
    exact if_congr or_comm rfl rfl

theorem swapCoalesce_swapCoalesce (s : CoalesceState) :
    swapCoalesce (swapCoalesce s) = s := rfl

theorem stepCoalesce_swap (v : Nat) (s : CoalesceState) :
    stepCoalesce v (swapCoalesce s) true = swapCoalesce (stepCoalesce v s false) := by
  simp [stepCoalesce, swapCoalesce]

set_option maxHeartbeats 1000000 in
theorem coalesceInv_stepA (v : Nat) (s : CoalesceState) (h : CoalesceInv v s) :
    CoalesceInv v (stepCoalesce v s true) := by
  obtain ⟨cA, cB, ⟨cache, infl, prom, calls⟩⟩ := s
  obtain ⟨h1, h2, h3, h4, h5, h6, h7, h8⟩ := h
  cases cA <;> cases cache <;> cases infl <;>
    refine ⟨?_, ?_, ?_, ?_, ?_, ?_, ?_, ?_⟩ <;>
    simp_all [stepCoalesce, stepCaller, activeC] <;>
    first
      | omega
      | assumption
      | (cases cB <;> simp_all [activeC])

theorem coalesceInv_step (v : Nat) (s : CoalesceState) (i : Bool)
    (h : CoalesceInv v s) : CoalesceInv v (stepCoalesce v s i) := by
  cases i
  case true => exact coalesceInv_stepA v s h
  case false =>
    have h1 := coalesceInv_stepA v (swapCoalesce s) (coalesceInv_swap v s h)
    rw [stepCoalesce_swap] at h1
    have h2 := coalesceInv_swap v _ h1
    rwa [swapCoalesce_swapCoalesce] at h2

theorem coalesceInv_run (v : Nat) (trace : List Bool) :
    CoalesceInv v (runCoalesce v trace) := by
  have key : ∀ (t : List Bool) (s : CoalesceState), CoalesceInv v s →
      CoalesceInv v (t.foldl (stepCoalesce v) s) := by
    intro t
    induction t with
    | nil => exact fun s hs => hs
    | cons b bs ih => exact fun s hs => ih _ (coalesceInv_step v s b hs)
  exact key trace initCoalesce (coalesceInv_init v)

/-!
### Claim theorem: request coalescing
-/

/-- C7: in the spec-modelled coalescing protocol, every interleaving of two
callers on the same fingerprint that lets both finish performs exactly one
provider invocation, and both callers receive the provider's single result. -/
theorem responseCache_coalesces (v : Nat) (trace : List Bool) (rA rB : Nat)
    (hA : (runCoalesce v trace).callerA = CallerPhase.finished rA)
    (hB : (runCoalesce v trace).callerB = CallerPhase.finished rB) :
    (runCoalesce v trace).shared.provCalls = 1 ∧ rA = v ∧ rB = v := by
  obtain ⟨h1, h2, h3, h4, h5, h6, h7, h8⟩ := coalesceInv_run v trace
  obtain ⟨hAv, hcache⟩ := h7 rA hA
  obtain ⟨hBv, _⟩ := h8 rB hB
  refine ⟨?_, hAv, hBv⟩
  rw [h6, hcache, hA, hB]
  simp

/-- C7 witness: caller A claims the in-flight marker, caller B arrives while
the provider call is under way and awaits the shared promise; both finish
with the provider value 42 after a single provider invocation. -/
theorem responseCache_coalesces_witness :
    (runCoalesce 42 [true, false, true, true, false]).shared.provCalls = 1 ∧
      (42 : Nat) = 42 ∧ (42 : Nat) = 42 :=
  responseCache_coalesces 42 [true, false, true, true, false] 42 42
    (by decide) (by decide)

end ContentAi
